import Mathlib

/-!
Verification of the Candy Land traversal engine of `candyland.py`.

Python strings are modelled as `List Char` (so `card[0]` is the head
character and `len(card) == 1` is "the tail is empty"), the mapping
dictionaries as association lists, and fallible operations (a raised
KeyError / IndexError / TypeError, or a `None` used where an index is
expected) as `none` of an `Option` result.  Python float arithmetic in
the transition matrix is modelled exactly over `ℚ`.
-/

/-- A board space: the Python dict with the optional keys `color`, `char`,
`special`, `bridge` and `end` (the last one called `bEnd` here).
`space.get(k)` is the corresponding field. -/
structure Space where
  color : Option (List Char) := none
  char : Option (List Char) := none
  special : Option (List Char) := none
  bridge : Option (List Char) := none
  bEnd : Option (List Char) := none
deriving DecidableEq, Inhabited

/-- The configuration passed to `CandyLand.__init__`: the board, the deck
(`Counter`, as an ordered label → count association), the character names
and the bridge names. -/
structure CandyLand where
  board : List Space
  deck : List (List Char × Nat)
  characters : List (List Char)
  bridges : List (List Char)
deriving DecidableEq

/-- `self.board[i]` for the in-range indices that the claims quantify
over (Python raises IndexError out of range; the default space stands in
for that, outside every claim's domain). -/
def spaceAt (cl : CandyLand) (i : Nat) : Space := cl.board.getD i {}

/-- First index at offset `k` or later (list `l` being the board laid out
from offset `k`) whose space satisfies `p`; `none` when absent.  This is
the `for idx, space in enumerate(self.board)` search loop shared by
`_get_character_pos` and `_get_bridge_end_pos`. -/
def findIdxFrom (p : Space → Bool) : List Space → Nat → Option Nat
  | [], _ => none
  | s :: rest, k => if p s then some k else findIdxFrom p rest (k + 1)

/-- `_get_character_pos`: the index of the first space whose `char` key
equals the name; `None` when not found. -/
def getCharacterPos (board : List Space) (character : List Char) : Option Nat :=
  findIdxFrom (fun s => decide (s.char = some character)) board 0

/-- `_get_bridge_end_pos`: the index of the first space whose `end` key
equals the bridge name; `None` when not found. -/
def getBridgeEndPos (board : List Space) (bridge : List Char) : Option Nat :=
  findIdxFrom (fun s => decide (s.bEnd = some bridge)) board 0

/-- `_make_character_mappings`: `dict(zip(self.characters, spaces))`. -/
def makeCharacterMappings (cl : CandyLand) : List (List Char × Option Nat) :=
  cl.characters.map (fun ch => (ch, getCharacterPos cl.board ch))

/-- `_make_bridge_mappings`: `dict(zip(self.bridges, spaces))`. -/
def makeBridgeMappings (cl : CandyLand) : List (List Char × Option Nat) :=
  cl.bridges.map (fun b => (b, getBridgeEndPos cl.board b))

/-- Python `d[k]` on the two mapping dicts: a missing key (KeyError) and a
stored `None` value both come out as `none` — in either case no valid
index is produced. -/
def dictGet (d : List (List Char × Option Nat)) (k : List Char) : Option Nat :=
  match d.find? (fun p => decide (p.1 = k)) with
  | some p => p.2
  | none => none

/-- Python truthiness of `space.get("bridge")`: `None` and the empty
string are falsy, every other string is truthy. -/
def truthy : Option (List Char) → Bool
  | none => false
  | some s => !s.isEmpty

/-- The `for idx, space in enumerate(self.board): if idx > start` loop of
`traverse` in the `len(card) == 1` branch: scan `l` (the board from
offset `k`) for the first space of colour `c`; on a truthy `bridge` key
return that bridge's mapping, otherwise the matched index; falling
through the whole board returns `len(self.board) - 1`. -/
def scan1 (cl : CandyLand) (c : Char) : List Space → Nat → Option Nat
  | [], _ => some (cl.board.length - 1)
  | s :: rest, k =>
    if s.color = some [c] then
      if truthy s.bridge then dictGet (makeBridgeMappings cl) (s.bridge.getD [])
      else some k
    else scan1 cl c rest (k + 1)

/-- `traverse(card, start)` specialised to a one-character card `[c]`:
exactly the body of `traverse` for such a card.  The recursive call
`self.traverse(card[0], idx)` made by the double-colour branch is this
function, since `card[0]` is a string of length 1. -/
def traverse1 (cl : CandyLand) (c : Char) (start : Nat) : Option Nat :=
  if (spaceAt cl start).special = some ("end".data) then some start
  else if (spaceAt cl start).special = some ("miss".data) then some (start + 1)
  else if [c] ∈ cl.characters then dictGet (makeCharacterMappings cl) [c]
  else scan1 cl c (cl.board.drop (start + 1)) (start + 1)

/-- The scan loop of `traverse` for a card of length ≥ 2: on the first
colour match at index `k` the code does `return self.traverse(card[0], k)`
— the recursion restarts from the matched index `k` itself (not from a
bridge end, even when the matched space starts a bridge). -/
def scanD (cl : CandyLand) (c : Char) : List Space → Nat → Option Nat
  | [], _ => some (cl.board.length - 1)
  | s :: rest, k =>
    if s.color = some [c] then traverse1 cl c k
    else scanD cl c rest (k + 1)

/-- `CandyLand.traverse(card, start)`, rules in source order: the
`special == "end"` check, the `special == "miss"` check, the
`card in self.characters` check, then the colour scan from `start + 1`.
An empty card raises (IndexError on `card[0]`), modelled as `none`. -/
def traverse (cl : CandyLand) (card : List Char) (start : Nat) : Option Nat :=
  if (spaceAt cl start).special = some ("end".data) then some start
  else if (spaceAt cl start).special = some ("miss".data) then some (start + 1)
  else if card ∈ cl.characters then dictGet (makeCharacterMappings cl) card
  else
    match card with
    | [] => none
    | [c] => scan1 cl c (cl.board.drop (start + 1)) (start + 1)
    | c :: _ :: _ => scanD cl c (cl.board.drop (start + 1)) (start + 1)

/-- `self.deck.total()`: the deck size. -/
def deckSize (cl : CandyLand) : Nat := (cl.deck.map Prod.snd).sum

/-- Inner loop of `make_traversal_matrix` for row `i`: over the deck items
`(card, count)` do `m[self.traverse(card, i)] += count / deck_size`.
A `None` result (TypeError as a list index) or an out-of-range index
(IndexError) raises, modelled as `none`. -/
def rowGo (cl : CandyLand) (i : Nat) : List (List Char × Nat) → List ℚ → Option (List ℚ)
  | [], m => some m
  | (card, count) :: rest, m =>
    match traverse cl card i with
    | none => none
    | some j =>
      if j < m.length then
        rowGo cl i rest (m.set j (m.getD j 0 + (count : ℚ) / (deckSize cl : ℚ)))
      else none

/-- Row `i` of the traversal matrix, starting from `[0] * len(self.board)`. -/
def rowFor (cl : CandyLand) (i : Nat) : Option (List ℚ) :=
  rowGo cl i cl.deck (List.replicate cl.board.length 0)

/-- `for i in range(len(self.board)): traversal_matrix.append(m)`. -/
def buildRows (cl : CandyLand) : List Nat → Option (List (List ℚ))
  | [] => some []
  | i :: rest =>
    match rowFor cl i, buildRows cl rest with
    | some r, some rs => some (r :: rs)
    | _, _ => none

/-- `make_traversal_matrix`, with the float arithmetic carried out exactly
in `ℚ`. -/
def make_traversal_matrix (cl : CandyLand) : Option (List (List ℚ)) :=
  buildRows cl (List.range cl.board.length)

/-- The `while self.pos < len(self.board) - 1` loop of `play`, run against
an explicit list of upcoming draws (the concatenation of the successive
shuffled working decks; reshuffle-on-empty only ever extends this
stream).  `none` means the supplied draws ran out before the end was
reached, or `traverse` produced no valid index. -/
def playGo (cl : CandyLand) (draws : List (List Char)) (pos turns : Nat) : Option Nat :=
  if pos < cl.board.length - 1 then
    match draws with
    | [] => none
    | card :: rest =>
      match traverse cl card pos with
      | none => none
      | some p => playGo cl rest p (turns + 1)
  else some turns

/-- The index of the first space strictly after `start` whose colour
equals `[c]`: the space the colour scan of `traverse` acts on first. -/
def firstColorMatch (cl : CandyLand) (c : Char) (start : Nat) : Option Nat :=
  findIdxFrom (fun s => decide (s.color = some [c])) (cl.board.drop (start + 1)) (start + 1)

/-- The board is non-empty and its last space is the `special = "end"`
marker. -/
abbrev EndLast (cl : CandyLand) : Prop :=
  cl.board ≠ [] ∧ (spaceAt cl (cl.board.length - 1)).special = some ("end".data)

/-- Every character name resolves to a character space on the board. -/
abbrev CharsResolve (cl : CandyLand) : Prop :=
  ∀ ch ∈ cl.characters, (getCharacterPos cl.board ch).isSome = true

/-- Every truthy bridge-start key on the board is a known bridge name that
resolves to a bridge-end space. -/
abbrev BridgesResolve (cl : CandyLand) : Prop :=
  ∀ s ∈ cl.board, truthy s.bridge = true →
    s.bridge.getD [] ∈ cl.bridges ∧
      (getBridgeEndPos cl.board (s.bridge.getD [])).isSome = true

/-- Every bridge mapping leads strictly forward from every space that
starts that bridge. -/
abbrev BridgesForward (cl : CandyLand) : Prop :=
  ∀ i, i < cl.board.length → truthy (spaceAt cl i).bridge = true →
    i < (dictGet (makeBridgeMappings cl) ((spaceAt cl i).bridge.getD [])).getD 0

/-- The example board of the spec: `[start, red, blue bridge-start "A",
green, blue bridge-end "A", end]`, single-letter colour labels. -/
def exBoard : List Space :=
  [ { special := some ("start".data) },
    { color := some ("r".data) },
    { color := some ("b".data), bridge := some ("A".data) },
    { color := some ("g".data) },
    { color := some ("b".data), bEnd := some ("A".data) },
    { special := some ("end".data) } ]

/-- The example configuration of the spec, deck `{"r": 1}`. -/
def exCL : CandyLand :=
  { board := exBoard
    deck := [("r".data, 1)]
    characters := []
    bridges := ["A".data] }

example : traverse exCL ("r".data) 0 = some 1 := by decide
example : traverse exCL ("b".data) 1 = some 4 := by decide
example : traverse exCL ("bb".data) 0 = some 4 := by decide
example : traverse exCL ("x".data) 0 = some 5 := by decide
example : traverse exCL ("r".data) 5 = some 5 := by decide

/-! ### Structural helper lemmas -/

lemma drop_cons_facts (l : List Space) (k : Nat) (s : Space) (rest : List Space)
    (h : l.drop k = s :: rest) :
    l.getD k {} = s ∧ l.drop (k + 1) = rest ∧ s ∈ l ∧ k < l.length := by
  induction l generalizing k with
  | nil => simp at h
  | cons a t ih =>
    cases k with
    | zero =>
      simp only [List.drop_zero] at h
      cases h
      exact ⟨rfl, by simp, by simp, by simp⟩
    | succ k =>
      have h' : t.drop k = s :: rest := h
      obtain ⟨h1, h2, h3, h4⟩ := ih k h'
      refine ⟨h1, h2, List.mem_cons_of_mem a h3, by simpa using Nat.succ_lt_succ h4⟩

lemma findIdxFrom_bounds (p : Space → Bool) (l : List Space) :
    ∀ k j, findIdxFrom p l k = some j → k ≤ j ∧ j < k + l.length := by
  induction l with
  | nil => intro k j h; simp [findIdxFrom] at h
  | cons s rest ih =>
    intro k j h
    by_cases hp : p s = true
    · simp [findIdxFrom, hp] at h
      simp only [List.length_cons]
      omega
    · simp only [findIdxFrom, hp, if_false, Bool.false_eq_true] at h
      have := ih (k + 1) j h
      simp only [List.length_cons]
      omega

lemma findIdxFrom_getD (p : Space → Bool) (l : List Space) :
    ∀ k j, findIdxFrom p l k = some j → p (l.getD (j - k) {}) = true := by
  induction l with
  | nil => intro k j h; simp [findIdxFrom] at h
  | cons s rest ih =>
    intro k j h
    by_cases hp : p s = true
    · simp [findIdxFrom, hp] at h
      subst h
      simpa using hp
    · simp only [findIdxFrom, hp, if_false, Bool.false_eq_true] at h
      have hb := findIdxFrom_bounds p rest (k + 1) j h
      have := ih (k + 1) j h
      have hjk : j - k = (j - (k + 1)) + 1 := by omega
      rw [hjk]
      simpa using this

lemma dictGet_map (f : List Char → Option Nat) (l : List (List Char)) (k : List Char)
    (h : k ∈ l) :
    dictGet (l.map (fun x => (x, f x))) k = f k := by
  induction l with
  | nil => simp at h
  | cons x xs ih =>
    by_cases hx : x = k
    · subst hx
      simp [dictGet, List.find?]
    · have hk : k ∈ xs := by
        rcases List.mem_cons.mp h with h1 | h1
        · exact absurd h1.symm hx
        · exact h1
      have : dictGet (xs.map (fun x => (x, f x))) k = f k := ih hk
      simpa [dictGet, List.find?, hx] using this

/-! ### Resolution of the two mapping dicts under well-formedness -/

lemma bridge_resolves (cl : CandyLand) (hbr : BridgesResolve cl) (s : Space)
    (hmem : s ∈ cl.board) (hb : truthy s.bridge = true) :
    ∃ e, dictGet (makeBridgeMappings cl) (s.bridge.getD []) = some e ∧
      e < cl.board.length := by
  obtain ⟨hin, hsome⟩ := hbr s hmem hb
  obtain ⟨e, he⟩ := Option.isSome_iff_exists.mp hsome
  have he' : findIdxFrom (fun sp => decide (sp.bEnd = some (s.bridge.getD []))) cl.board 0
      = some e := he
  refine ⟨e, ?_, ?_⟩
  · rw [makeBridgeMappings, dictGet_map _ _ _ hin]
    exact he
  · have := findIdxFrom_bounds _ cl.board 0 e he'
    omega

lemma char_resolves (cl : CandyLand) (hch : CharsResolve cl) (ch : List Char)
    (h : ch ∈ cl.characters) :
    ∃ j, dictGet (makeCharacterMappings cl) ch = some j ∧ j < cl.board.length := by
  obtain ⟨j, hj⟩ := Option.isSome_iff_exists.mp (hch ch h)
  have hj' : findIdxFrom (fun sp => decide (sp.char = some ch)) cl.board 0 = some j := hj
  refine ⟨j, ?_, ?_⟩
  · rw [makeCharacterMappings, dictGet_map _ _ _ h]
    exact hj
  · have := findIdxFrom_bounds _ cl.board 0 j hj'
    omega

/-! ### Totality and in-range results of the traversal engine -/

lemma scan1_sound (cl : CandyLand) (c : Char) (hne : cl.board ≠ [])
    (hbr : BridgesResolve cl) :
    ∀ (l : List Space) (k : Nat), cl.board.drop k = l →
      ∃ j, scan1 cl c l k = some j ∧ j < cl.board.length := by
  intro l
  induction l with
  | nil =>
    intro k _
    refine ⟨cl.board.length - 1, rfl, ?_⟩
    have : 0 < cl.board.length := List.length_pos.mpr hne
    omega
  | cons s rest ih =>
    intro k hk
    obtain ⟨hget, hdrop, hmem, hklen⟩ := drop_cons_facts cl.board k s rest hk
    by_cases hcol : s.color = some [c]
    · by_cases hbrg : truthy s.bridge = true
      · obtain ⟨e, he, helt⟩ := bridge_resolves cl hbr s hmem hbrg
        exact ⟨e, by simp [scan1, hcol, hbrg, he], helt⟩
      · exact ⟨k, by simp [scan1, hcol, hbrg], hklen⟩
    · obtain ⟨j, hj, hjl⟩ := ih (k + 1) hdrop
      exact ⟨j, by simp [scan1, hcol, hj], hjl⟩

lemma traverse1_sound (cl : CandyLand) (c : Char) (hEnd : EndLast cl)
    (hch : CharsResolve cl) (hbr : BridgesResolve cl) :
    ∀ x, x < cl.board.length →
      ∃ j, traverse1 cl c x = some j ∧ j < cl.board.length := by
  intro x hx
  by_cases h1 : (spaceAt cl x).special = some ("end".data)
  · exact ⟨x, by simp [traverse1, h1], hx⟩
  by_cases h2 : (spaceAt cl x).special = some ("miss".data)
  · refine ⟨x + 1, by simp [traverse1, h1, h2], ?_⟩
    have hxne : x ≠ cl.board.length - 1 := by
      intro hxe
      rw [hxe, hEnd.2] at h2
      exact absurd (Option.some.inj h2) (by decide)
    omega
  by_cases h3 : [c] ∈ cl.characters
  · obtain ⟨j, hj, hjl⟩ := char_resolves cl hch [c] h3
    exact ⟨j, by simp [traverse1, h1, h2, h3, hj], hjl⟩
  · obtain ⟨j, hj, hjl⟩ := scan1_sound cl c hEnd.1 hbr (cl.board.drop (x + 1)) (x + 1) rfl
    exact ⟨j, by simp [traverse1, h1, h2, h3, hj], hjl⟩

lemma scanD_sound (cl : CandyLand) (c : Char) (hEnd : EndLast cl)
    (hch : CharsResolve cl) (hbr : BridgesResolve cl) :
    ∀ (l : List Space) (k : Nat), cl.board.drop k = l →
      ∃ j, scanD cl c l k = some j ∧ j < cl.board.length := by
  intro l
  induction l with
  | nil =>
    intro k _
    refine ⟨cl.board.length - 1, rfl, ?_⟩
    have : 0 < cl.board.length := List.length_pos.mpr hEnd.1
    omega
  | cons s rest ih =>
    intro k hk
    obtain ⟨hget, hdrop, hmem, hklen⟩ := drop_cons_facts cl.board k s rest hk
    by_cases hcol : s.color = some [c]
    · obtain ⟨j, hj, hjl⟩ := traverse1_sound cl c hEnd hch hbr k hklen
      exact ⟨j, by simp [scanD, hcol, hj], hjl⟩
    · obtain ⟨j, hj, hjl⟩ := ih (k + 1) hdrop
      exact ⟨j, by simp [scanD, hcol, hj], hjl⟩

/-- Unfolding equation for `traverse` (stated once, since the bare name
clashes with `Traversable.traverse` inside `simp` sets). -/
lemma traverse_eq (cl : CandyLand) (card : List Char) (start : Nat) :
    traverse cl card start =
      if (spaceAt cl start).special = some ("end".data) then some start
      else if (spaceAt cl start).special = some ("miss".data) then some (start + 1)
      else if card ∈ cl.characters then dictGet (makeCharacterMappings cl) card
      else
        match card with
        | [] => none
        | [c] => scan1 cl c (cl.board.drop (start + 1)) (start + 1)
        | c :: _ :: _ => scanD cl c (cl.board.drop (start + 1)) (start + 1) := rfl

lemma traverse_sound (cl : CandyLand) (hEnd : EndLast cl) (hch : CharsResolve cl)
    (hbr : BridgesResolve cl) (card : List Char) (hcard : card ≠ []) :
    ∀ i, i < cl.board.length →
      ∃ j, traverse cl card i = some j ∧ j < cl.board.length := by
  intro i hi
  by_cases h1 : (spaceAt cl i).special = some ("end".data)
  · exact ⟨i, by simp [traverse_eq, h1], hi⟩
  by_cases h2 : (spaceAt cl i).special = some ("miss".data)
  · refine ⟨i + 1, by simp [traverse_eq, h1, h2], ?_⟩
    have hne2 : i ≠ cl.board.length - 1 := by
      intro hxe
      rw [hxe, hEnd.2] at h2
      exact absurd (Option.some.inj h2) (by decide)
    omega
  by_cases h3 : card ∈ cl.characters
  · obtain ⟨j, hj, hjl⟩ := char_resolves cl hch card h3
    exact ⟨j, by simp [traverse_eq, h1, h2, h3, hj], hjl⟩
  rcases card with _ | ⟨c, _ | ⟨d, t⟩⟩
  · exact absurd rfl hcard
  · obtain ⟨j, hj, hjl⟩ := scan1_sound cl c hEnd.1 hbr (cl.board.drop (i + 1)) (i + 1) rfl
    exact ⟨j, by simp [traverse_eq, h1, h2, h3, hj], hjl⟩
  · obtain ⟨j, hj, hjl⟩ := scanD_sound cl c hEnd hch hbr (cl.board.drop (i + 1)) (i + 1) rfl
    exact ⟨j, by simp [traverse_eq, h1, h2, h3, hj], hjl⟩

/-! ### Claims C2, C3, C4 -/

/-- Claim C2: for every card `c`, `traverse(c, terminal_index)` returns
`terminal_index` unchanged, where the terminal index is the index of a
space tagged `special = "end"`; the terminal state is absorbing under any
draw. -/
theorem c2_end_absorbing (cl : CandyLand) (card : List Char) (t : Nat)
    (h : (spaceAt cl t).special = some ("end".data)) :
    traverse cl card t = some t := by
  simp [traverse_eq, h]

theorem c2_witness : traverse exCL ("r".data) 5 = some 5 :=
  c2_end_absorbing exCL ("r".data) 5 (by decide)

/-- Claim C3: for every card (single-colour, double-colour or character)
and every start index whose space is tagged `special = "miss"`,
`traverse` returns `start + 1`, independently of the card drawn. -/
theorem c3_miss_plus_one (cl : CandyLand) (card : List Char) (s : Nat)
    (h : (spaceAt cl s).special = some ("miss".data)) :
    traverse cl card s = some (s + 1) := by
  have hne : (spaceAt cl s).special ≠ some ("end".data) := by
    rw [h]
    intro hc
    exact absurd (Option.some.inj hc) (by decide)
  simp [traverse_eq, hne, h]

/-- A small board with a miss space at index 1 (and the skip-tracking
space next to it), used to instantiate the miss rule. -/
def cl3 : CandyLand :=
  { board := [ { special := some ("start".data) },
               { color := some ("r".data), special := some ("miss".data) },
               { special := some ("skip".data) },
               { special := some ("end".data) } ]
    deck := [("r".data, 1)]
    characters := []
    bridges := [] }

theorem c3_witness : traverse cl3 ("r".data) 1 = some 2 :=
  c3_miss_plus_one cl3 ("r".data) 1 (by decide)

/-- Claim C4: for a well-formed board and deck (characters and bridges
resolve, the last space is the `end` marker, card labels are non-empty
strings), `traverse` is total on board positions and deck cards, and its
result is always an index in `[0, |board|)` — no lookup yields the
not-found sentinel and no index is out of bounds. -/
theorem c4_traverse_total (cl : CandyLand) (hEnd : EndLast cl)
    (hch : CharsResolve cl) (hbr : BridgesResolve cl)
    (hlabels : ∀ p ∈ cl.deck, p.1 ≠ [])
    (card : List Char) (hcard : card ∈ cl.deck.map Prod.fst)
    (i : Nat) (hi : i < cl.board.length) :
    ∃ j, traverse cl card i = some j ∧ j < cl.board.length := by
  obtain ⟨p, hp, hpe⟩ := List.mem_map.mp hcard
  exact traverse_sound cl hEnd hch hbr card (hpe ▸ hlabels p hp) i hi

theorem c4_witness :
    ∃ j, traverse exCL ("r".data) 0 = some j ∧ j < exCL.board.length :=
  c4_traverse_total exCL (by decide) (by decide) (by decide) (by decide)
    ("r".data) (by decide) 0 (by decide)

/-! ### Claim C1 (corrected): intermediate bridge hops are NOT resolved -/

/-- Claim C1, counterexample: on the spec's example board the double-blue
card from 0 does NOT return the terminal index 5.  The code recurses from
the matched index 2 itself without resolving the bridge, finds the second
blue at index 4 and returns it. -/
theorem c1_counterexample : traverse exCL ("bb".data) 0 ≠ some 5 := by decide

/-- Claim C1, amended: `traverse("r",0) = 1` and `traverse("b",1) = 4`
hold as stated, but `traverse("bb",0) = 4`: the first blue hop matches
the bridge-start at index 2 and the recursion `traverse("b", 2)` restarts
from index 2 (not from the bridge end), finds the second blue at index 4
— the bridge-end space, which carries no `bridge` key — and returns 4. -/
theorem c1_amended :
    traverse exCL ("r".data) 0 = some 1 ∧
    traverse exCL ("b".data) 1 = some 4 ∧
    traverse exCL ("bb".data) 0 = some 4 := by decide

/-! ### Claim C7 (corrected): unknown labels fall through to the end -/

lemma scan1_no_match (cl : CandyLand) (c : Char) :
    ∀ (l : List Space) (k : Nat),
      findIdxFrom (fun sp => decide (sp.color = some [c])) l k = none →
      scan1 cl c l k = some (cl.board.length - 1) := by
  intro l
  induction l with
  | nil => intro k _; rfl
  | cons s rest ih =>
    intro k h
    by_cases hcol : s.color = some [c]
    · simp [findIdxFrom, hcol] at h
    · simp [findIdxFrom, hcol] at h
      simp [scan1, hcol, ih (k + 1) h]

lemma scanD_no_match (cl : CandyLand) (c : Char) :
    ∀ (l : List Space) (k : Nat),
      findIdxFrom (fun sp => decide (sp.color = some [c])) l k = none →
      scanD cl c l k = some (cl.board.length - 1) := by
  intro l
  induction l with
  | nil => intro k _; rfl
  | cons s rest ih =>
    intro k h
    by_cases hcol : s.color = some [c]
    · simp [findIdxFrom, hcol] at h
    · simp [findIdxFrom, hcol] at h
      simp [scanD, hcol, ih (k + 1) h]

/-- Claim C7, amended: a colour-shaped card label that matches no colour
ahead of `start` and is not a known character name makes `traverse`
silently return the terminal index `len(board) - 1` (the "end counts as
every colour" fall-through) — it does not raise and does not return an
error result. -/
theorem c7_amended (cl : CandyLand) (c : Char) (rest : List Char) (s : Nat)
    (h1 : (spaceAt cl s).special ≠ some ("end".data))
    (h2 : (spaceAt cl s).special ≠ some ("miss".data))
    (h3 : (c :: rest) ∉ cl.characters)
    (h4 : firstColorMatch cl c s = none) :
    traverse cl (c :: rest) s = some (cl.board.length - 1) := by
  have h4' : findIdxFrom (fun sp => decide (sp.color = some [c]))
      (cl.board.drop (s + 1)) (s + 1) = none := h4
  rcases rest with _ | ⟨d, t⟩
  · simp [traverse_eq, h1, h2, h3, scan1_no_match cl c _ _ h4']
  · simp [traverse_eq, h1, h2, h3, scanD_no_match cl c _ _ h4']

theorem c7_witness : traverse exCL ('x' :: []) 0 = some (exCL.board.length - 1) :=
  c7_amended exCL 'x' [] 0 (by decide) (by decide) (by decide) (by decide)

/-- Claim C7, counterexample: the label "x" matches no colour on the
example board and is no character name, yet `traverse` neither raises nor
returns an error result — it silently returns the terminal index. -/
theorem c7_counterexample :
    traverse exCL ("x".data) 0 = some (exCL.board.length - 1) ∧
    traverse exCL ("x".data) 0 ≠ none := by decide

/-! ### Claim C6: a single-colour card landing on a bridge start resolves it -/

lemma scan1_first_match (cl : CandyLand) (c : Char) :
    ∀ (l : List Space) (k idx : Nat), cl.board.drop k = l →
      findIdxFrom (fun sp => decide (sp.color = some [c])) l k = some idx →
      scan1 cl c l k =
        if truthy (spaceAt cl idx).bridge then
          dictGet (makeBridgeMappings cl) ((spaceAt cl idx).bridge.getD [])
        else some idx := by
  intro l
  induction l with
  | nil => intro k idx _ h; simp [findIdxFrom] at h
  | cons s rest ih =>
    intro k idx hk h
    obtain ⟨hget, hdrop, _, _⟩ := drop_cons_facts cl.board k s rest hk
    by_cases hcol : s.color = some [c]
    · simp [findIdxFrom, hcol] at h
      subst h
      have hs : spaceAt cl k = s := hget
      simp [scan1, hcol, hs]
    · simp [findIdxFrom, hcol] at h
      simp [scan1, hcol, ih (k + 1) idx hdrop h]

lemma getBridgeEndPos_spec (board : List Space) (b : List Char) (e : Nat)
    (h : getBridgeEndPos board b = some e) :
    (board.getD e {}).bEnd = some b := by
  have h' : findIdxFrom (fun sp => decide (sp.bEnd = some b)) board 0 = some e := h
  have := findIdxFrom_getD _ board 0 e h'
  simpa using this

/-- Claim C6: when the forward scan's first space of the card's colour is
a bridge-start space (truthy `bridge` key naming a bridge whose end
resolves, the matched space itself not being that bridge's end),
`traverse` on the single-colour card returns the bridge's end index and
never the bridge-start index itself. -/
theorem c6_bridge_start_resolved (cl : CandyLand) (c : Char) (s idx : Nat)
    (b : List Char) (e : Nat)
    (h1 : (spaceAt cl s).special ≠ some ("end".data))
    (h2 : (spaceAt cl s).special ≠ some ("miss".data))
    (h3 : [c] ∉ cl.characters)
    (h4 : firstColorMatch cl c s = some idx)
    (h5 : (spaceAt cl idx).bridge = some b)
    (h6 : b ≠ [])
    (h7 : b ∈ cl.bridges)
    (h8 : getBridgeEndPos cl.board b = some e)
    (h9 : (spaceAt cl idx).bEnd ≠ some b) :
    traverse cl [c] s = some e ∧ e ≠ idx := by
  constructor
  · have h4' : findIdxFrom (fun sp => decide (sp.color = some [c]))
        (cl.board.drop (s + 1)) (s + 1) = some idx := h4
    have hscan := scan1_first_match cl c (cl.board.drop (s + 1)) (s + 1) idx rfl h4'
    have htr : truthy (spaceAt cl idx).bridge = true := by
      rw [h5]
      rcases b with _ | ⟨x, xs⟩
      · exact absurd rfl h6
      · rfl
    have hget : dictGet (makeBridgeMappings cl) ((spaceAt cl idx).bridge.getD [])
        = some e := by
      rw [h5]
      show dictGet (makeBridgeMappings cl) b = some e
      rw [makeBridgeMappings, dictGet_map _ _ _ h7]
      exact h8
    simp [traverse_eq, h1, h2, h3, hscan, htr, hget]
  · intro he
    subst he
    exact h9 (getBridgeEndPos_spec cl.board b e h8)

theorem c6_witness : traverse exCL ('b' :: []) 1 = some 4 ∧ 4 ≠ 2 :=
  c6_bridge_start_resolved exCL 'b' 1 2 ("A".data) 4 (by decide) (by decide)
    (by decide) (by decide) (by decide) (by decide) (by decide) (by decide)
    (by decide)

/-! ### Claim C8 (corrected): unresolved names yield sentinels, not failure -/

/-- A configuration whose character name "q" has no character space and
whose bridge name "B" has no bridge-end space, while the deck only holds
the colour card "r". -/
def cl8 : CandyLand :=
  { board := [ { special := some ("start".data) },
               { color := some ("r".data) },
               { special := some ("end".data) } ]
    deck := [("r".data, 1)]
    characters := ["q".data]
    bridges := ["B".data] }

/-- Claim C8, counterexample: with an unresolvable character name the
Position Index construction does not fail — it builds a mapping holding
the `None` sentinel, and full initialization (including the traversal
matrix, whose deck never consults the bad name) completes. -/
theorem c8_counterexample :
    makeCharacterMappings cl8 = [("q".data, none)] ∧
    make_traversal_matrix cl8 ≠ none := by decide

/-- Claim C8, amended: an unresolvable character or bridge name is mapped
to the `None` sentinel at Position Index construction; no validation
failure occurs there (initialization completes when no deck card consults
the sentinel), and the error only surfaces later when `traverse` is asked
to resolve the name. -/
theorem c8_amended :
    makeCharacterMappings cl8 = [("q".data, none)] ∧
    makeBridgeMappings cl8 = [("B".data, none)] ∧
    traverse cl8 ("q".data) 0 = none ∧
    make_traversal_matrix cl8 ≠ none := by decide

/-! ### Forward progress of colour cards -/

lemma scan1_progress (cl : CandyLand) (c : Char) (hne : cl.board ≠ [])
    (hbr : BridgesResolve cl) (hbf : BridgesForward cl) :
    ∀ (l : List Space) (k : Nat), cl.board.drop k = l →
      ∃ j, scan1 cl c l k = some j ∧ (k ≤ j ∨ j = cl.board.length - 1) ∧
        j < cl.board.length := by
  intro l
  induction l with
  | nil =>
    intro k _
    refine ⟨cl.board.length - 1, rfl, Or.inr rfl, ?_⟩
    have : 0 < cl.board.length := List.length_pos.mpr hne
    omega
  | cons s rest ih =>
    intro k hk
    obtain ⟨hget, hdrop, hmem, hklen⟩ := drop_cons_facts cl.board k s rest hk
    have hs : spaceAt cl k = s := hget
    by_cases hcol : s.color = some [c]
    · by_cases hbrg : truthy s.bridge = true
      · obtain ⟨e, he, helt⟩ := bridge_resolves cl hbr s hmem hbrg
        have hke : k < e := by
          have hv := hbf k hklen (by rw [hs]; exact hbrg)
          rw [hs, he] at hv
          simpa using hv
        exact ⟨e, by simp [scan1, hcol, hbrg, he], Or.inl (le_of_lt hke), helt⟩
      · exact ⟨k, by simp [scan1, hcol, hbrg], Or.inl le_rfl, hklen⟩
    · obtain ⟨j, hj, hor, hjl⟩ := ih (k + 1) hdrop
      refine ⟨j, by simp [scan1, hcol, hj], ?_, hjl⟩
      rcases hor with h | h
      · exact Or.inl (by omega)
      · exact Or.inr h

lemma traverse1_progress (cl : CandyLand) (c : Char) (hEnd : EndLast cl)
    (hbr : BridgesResolve cl) (hbf : BridgesForward cl)
    (hc1 : [c] ∉ cl.characters) :
    ∀ x, x < cl.board.length →
      ∃ j, traverse1 cl c x = some j ∧ x ≤ j ∧ j < cl.board.length := by
  intro x hx
  by_cases h1 : (spaceAt cl x).special = some ("end".data)
  · exact ⟨x, by simp [traverse1, h1], le_rfl, hx⟩
  by_cases h2 : (spaceAt cl x).special = some ("miss".data)
  · refine ⟨x + 1, by simp [traverse1, h1, h2], by omega, ?_⟩
    have hxne : x ≠ cl.board.length - 1 := by
      intro hxe
      rw [hxe, hEnd.2] at h2
      exact absurd (Option.some.inj h2) (by decide)
    omega
  · obtain ⟨j, hj, hor, hjl⟩ :=
      scan1_progress cl c hEnd.1 hbr hbf (cl.board.drop (x + 1)) (x + 1) rfl
    refine ⟨j, by simp [traverse1, h1, h2, hc1, hj], ?_, hjl⟩
    rcases hor with h | h
    · omega
    · omega

lemma scanD_progress (cl : CandyLand) (c : Char) (hEnd : EndLast cl)
    (hbr : BridgesResolve cl) (hbf : BridgesForward cl)
    (hc1 : [c] ∉ cl.characters) :
    ∀ (l : List Space) (k : Nat), cl.board.drop k = l →
      ∃ j, scanD cl c l k = some j ∧ (k ≤ j ∨ j = cl.board.length - 1) ∧
        j < cl.board.length := by
  intro l
  induction l with
  | nil =>
    intro k _
    refine ⟨cl.board.length - 1, rfl, Or.inr rfl, ?_⟩
    have : 0 < cl.board.length := List.length_pos.mpr hEnd.1
    omega
  | cons s rest ih =>
    intro k hk
    obtain ⟨hget, hdrop, hmem, hklen⟩ := drop_cons_facts cl.board k s rest hk
    by_cases hcol : s.color = some [c]
    · obtain ⟨j, hj, hle, hjl⟩ := traverse1_progress cl c hEnd hbr hbf hc1 k hklen
      exact ⟨j, by simp [scanD, hcol, hj], Or.inl hle, hjl⟩
    · obtain ⟨j, hj, hor, hjl⟩ := ih (k + 1) hdrop
      refine ⟨j, by simp [scanD, hcol, hj], ?_, hjl⟩
      rcases hor with h | h
      · exact Or.inl (by omega)
      · exact Or.inr h

lemma traverse_progress (cl : CandyLand) (hEnd : EndLast cl)
    (hbr : BridgesResolve cl) (hbf : BridgesForward cl)
    (hchars1 : ∀ c : Char, [c] ∉ cl.characters)
    (card : List Char) (hcardne : card ≠ []) (hcardch : card ∉ cl.characters)
    (s : Nat) (hs : s < cl.board.length)
    (hnotend : (spaceAt cl s).special ≠ some ("end".data)) :
    ∃ j, traverse cl card s = some j ∧ s < j ∧ j < cl.board.length := by
  have hsne : s ≠ cl.board.length - 1 := by
    intro hxe
    exact hnotend (hxe ▸ hEnd.2)
  by_cases h2 : (spaceAt cl s).special = some ("miss".data)
  · exact ⟨s + 1, by simp [traverse_eq, hnotend, h2], by omega, by omega⟩
  rcases card with _ | ⟨c, _ | ⟨d, t⟩⟩
  · exact absurd rfl hcardne
  · obtain ⟨j, hj, hor, hjl⟩ :=
      scan1_progress cl c hEnd.1 hbr hbf (cl.board.drop (s + 1)) (s + 1) rfl
    exact ⟨j, by simp [traverse_eq, hnotend, h2, hcardch, hj], by omega, hjl⟩
  · obtain ⟨j, hj, hor, hjl⟩ :=
      scanD_progress cl c hEnd hbr hbf (hchars1 c) (cl.board.drop (s + 1)) (s + 1) rfl
    exact ⟨j, by simp [traverse_eq, hnotend, h2, hcardch, hj], by omega, hjl⟩

/-- Claim C10, amended: colour cards (single or double, not a character
name, and — forced by the counterexample `cl10` — with no single-letter
character name that could capture the recursive single step) make
strictly forward progress from every non-end space of a well-formed
board, provided every bridge mapping leads strictly forward from every
space starting that bridge. -/
theorem c10_color_progress (cl : CandyLand) (hEnd : EndLast cl)
    (hbr : BridgesResolve cl) (hbf : BridgesForward cl)
    (hchars1 : ∀ c : Char, [c] ∉ cl.characters)
    (card : List Char) (hcardne : card ≠ []) (hcardch : card ∉ cl.characters)
    (s : Nat) (hs : s < cl.board.length)
    (hnotend : (spaceAt cl s).special ≠ some ("end".data)) :
    ∃ j, traverse cl card s = some j ∧ s < j := by
  obtain ⟨j, hj, hlt, _⟩ :=
    traverse_progress cl hEnd hbr hbf hchars1 card hcardne hcardch s hs hnotend
  exact ⟨j, hj, hlt⟩

theorem c10_witness : ∃ j, traverse exCL ("r".data) 0 = some j ∧ 0 < j :=
  c10_color_progress exCL (by decide) (by decide) (by decide)
    (fun c => List.not_mem_nil [c]) ("r".data) (by decide) (by decide)
    0 (by decide) (by decide)

/-! ### Claim C9 (corrected): play() need not terminate with character cards -/

/-- A well-formed configuration (character resolves, end marker last,
non-empty deck) whose only card is the character card "q" for the
character space at index 1.  Since the deck holds exactly one card, every
`make_shuffled_deck()` is the one-element list `["q"]`, so the stream of
draws of `play()` is deterministically "q", "q", "q", ... -/
def cl9 : CandyLand :=
  { board := [ { special := some ("start".data) },
               { char := some ("q".data) },
               { special := some ("end".data) } ]
    deck := [("q".data, 1)]
    characters := ["q".data]
    bridges := [] }

lemma cl9_step0 (rest : List (List Char)) (turns : Nat) :
    playGo cl9 (("q".data) :: rest) 0 turns = playGo cl9 rest 1 (turns + 1) := rfl

lemma cl9_step1 (rest : List (List Char)) (turns : Nat) :
    playGo cl9 (("q".data) :: rest) 1 turns = playGo cl9 rest 1 (turns + 1) := rfl

lemma cl9_stuck (n : Nat) : ∀ (pos turns : Nat), pos = 0 ∨ pos = 1 →
    playGo cl9 (List.replicate n ("q".data)) pos turns = none := by
  induction n with
  | zero => intro pos turns hpos; rcases hpos with h | h <;> subst h <;> rfl
  | succ n ih =>
    intro pos turns hpos
    rcases hpos with h | h <;> subst h
    · rw [List.replicate_succ, cl9_step0]
      exact ih 1 (turns + 1) (Or.inr rfl)
    · rw [List.replicate_succ, cl9_step1]
      exact ih 1 (turns + 1) (Or.inr rfl)

/-- Claim C9, counterexample: on `cl9` the while-loop of `play()` never
reaches the terminal index — the character card keeps the token parked on
the character space at index 1 — so no finite number of draws from the
(deterministic) reshuffled deck stream completes the game: `play()`
loops forever even though board and deck are well formed and non-empty. -/
theorem c9_counterexample :
    ¬ ∃ n : Nat, (playGo cl9 (List.replicate n ("q".data)) 0 0).isSome = true := by
  rintro ⟨n, h⟩
  rw [cl9_stuck n 0 0 (Or.inl rfl)] at h
  simp at h

lemma playGo_reaches (cl : CandyLand) (hEnd : EndLast cl)
    (hbr : BridgesResolve cl) (hbf : BridgesForward cl)
    (hchars1 : ∀ c : Char, [c] ∉ cl.characters)
    (hinterior : ∀ i, i < cl.board.length - 1 →
      (spaceAt cl i).special ≠ some ("end".data)) :
    ∀ (draws : List (List Char)) (pos turns : Nat),
      (∀ card ∈ draws, card ≠ [] ∧ card ∉ cl.characters) →
      pos < cl.board.length →
      cl.board.length - 1 - pos ≤ draws.length →
      ∃ t, playGo cl draws pos turns = some t ∧ turns ≤ t ∧
        (pos < cl.board.length - 1 → turns < t) := by
  intro draws
  induction draws with
  | nil =>
    intro pos turns hcards hpos hbudget
    simp only [List.length_nil, Nat.le_zero] at hbudget
    have hlt : ¬ pos < cl.board.length - 1 := by omega
    exact ⟨turns, by simp [playGo, hlt], le_rfl, fun h => absurd h hlt⟩
  | cons card rest ih =>
    intro pos turns hcards hpos hbudget
    by_cases hlt : pos < cl.board.length - 1
    · have hcard := hcards card (by simp)
      obtain ⟨j, hj, hjgt, hjlen⟩ :=
        traverse_progress cl hEnd hbr hbf hchars1 card hcard.1 hcard.2 pos hpos
          (hinterior pos hlt)
      simp only [List.length_cons] at hbudget
      obtain ⟨t, ht, hturns, _⟩ :=
        ih j (turns + 1) (fun x hx => hcards x (List.mem_cons_of_mem _ hx)) hjlen
          (by omega)
      exact ⟨t, by simp [playGo, hlt, hj, ht], by omega, fun _ => by omega⟩
    · exact ⟨turns, by simp [playGo, hlt], le_rfl, fun h => absurd h hlt⟩

/-- Claim C9, amended: `play()` terminates with a turn count ≥ 1 for a
well-formed board whenever the draw stream consists of colour cards only
(non-empty labels, no character names anywhere among them or among the
single-letter names) and all bridges lead strictly forward; a draw stream
at least as long as the board suffices, since every draw then makes
strict forward progress.  With character cards in the deck this can fail
(see the non-termination of `cl9`). -/
theorem c9_amended (cl : CandyLand) (hEnd : EndLast cl)
    (hlen2 : 2 ≤ cl.board.length)
    (hinterior : ∀ i, i < cl.board.length - 1 →
      (spaceAt cl i).special ≠ some ("end".data))
    (hbr : BridgesResolve cl) (hbf : BridgesForward cl)
    (hchars1 : ∀ c : Char, [c] ∉ cl.characters)
    (draws : List (List Char))
    (hcards : ∀ card ∈ draws, card ≠ [] ∧ card ∉ cl.characters)
    (hbudget : cl.board.length - 1 ≤ draws.length) :
    ∃ t, playGo cl draws 0 0 = some t ∧ 1 ≤ t := by
  obtain ⟨t, ht, _, hstrict⟩ :=
    playGo_reaches cl hEnd hbr hbf hchars1 hinterior draws 0 0 hcards (by omega)
      (by omega)
  exact ⟨t, ht, hstrict (by omega)⟩

theorem c9_witness :
    ∃ t, playGo exCL (List.replicate 5 ("r".data)) 0 0 = some t ∧ 1 ≤ t :=
  c9_amended exCL (by decide) (by decide) (by decide) (by decide) (by decide)
    (fun c => List.not_mem_nil [c]) (List.replicate 5 ("r".data)) (by decide)
    (by decide)

/-! ### Claim C5: every matrix row sums to exactly 1 (as a rational) -/

lemma sum_set_getD (m : List ℚ) :
    ∀ (j : Nat) (p : ℚ), j < m.length →
      (m.set j (m.getD j 0 + p)).sum = m.sum + p := by
  induction m with
  | nil => intro j p h; simp at h
  | cons a t ih =>
    intro j p h
    cases j with
    | zero =>
      simp only [List.set_cons_zero, List.getD_cons_zero, List.sum_cons]
      ring
    | succ j =>
      simp only [List.set_cons_succ, List.getD_cons_succ, List.sum_cons]
      rw [ih j p (by simpa using h)]
      ring

lemma rowGo_sum (cl : CandyLand) (i : Nat) :
    ∀ (d : List (List Char × Nat)) (m : List ℚ),
      m.length = cl.board.length →
      (∀ p ∈ d, ∃ j, traverse cl p.1 i = some j ∧ j < cl.board.length) →
      ∃ m2, rowGo cl i d m = some m2 ∧
        m2.sum = m.sum + (d.map fun p => ((p.2 : ℕ) : ℚ)).sum / (deckSize cl : ℚ) := by
  intro d
  induction d with
  | nil =>
    intro m hm _
    exact ⟨m, rfl, by simp⟩
  | cons q rest ih =>
    intro m hm hall
    obtain ⟨card, count⟩ := q
    obtain ⟨j, hj, hjl⟩ := hall (card, count) (by simp)
    have hjm : j < m.length := by omega
    have hlen2 : (m.set j (m.getD j 0 + (count : ℚ) / (deckSize cl : ℚ))).length
        = cl.board.length := by simp [hm]
    obtain ⟨mf, hmf, hsum⟩ :=
      ih (m.set j (m.getD j 0 + (count : ℚ) / (deckSize cl : ℚ))) hlen2
        (fun x hx => hall x (by simp [hx]))
    refine ⟨mf, ?_, ?_⟩
    · show (match traverse cl card i with
        | none => none
        | some j => if j < m.length then
            rowGo cl i rest (m.set j (m.getD j 0 + (count : ℚ) / (deckSize cl : ℚ)))
          else none) = some mf
      rw [hj]
      show (if j < m.length then
          rowGo cl i rest (m.set j (m.getD j 0 + (count : ℚ) / (deckSize cl : ℚ)))
        else none) = some mf
      rw [if_pos hjm]
      exact hmf
    rw [hsum, sum_set_getD m j ((count : ℚ) / (deckSize cl : ℚ)) hjm]
    simp only [List.map_cons, List.sum_cons]
    ring

lemma rowFor_sum (cl : CandyLand) (hEnd : EndLast cl) (hch : CharsResolve cl)
    (hbr : BridgesResolve cl) (hlabels : ∀ p ∈ cl.deck, p.1 ≠ [])
    (hD : deckSize cl ≠ 0) (i : Nat) (hi : i < cl.board.length) :
    ∃ r, rowFor cl i = some r ∧ r.sum = 1 := by
  have hall : ∀ p ∈ cl.deck, ∃ j, traverse cl p.1 i = some j ∧ j < cl.board.length :=
    fun p hp => traverse_sound cl hEnd hch hbr p.1 (hlabels p hp) i hi
  obtain ⟨r, hr, hsum⟩ :=
    rowGo_sum cl i cl.deck (List.replicate cl.board.length 0) (by simp) hall
  refine ⟨r, hr, ?_⟩
  rw [hsum]
  have h2 : (cl.deck.map fun p => ((p.2 : ℕ) : ℚ)).sum = ((deckSize cl : ℕ) : ℚ) := by
    rw [deckSize, Nat.cast_list_sum, List.map_map]
    rfl
  rw [h2]
  have hDq : ((deckSize cl : ℕ) : ℚ) ≠ 0 := Nat.cast_ne_zero.mpr hD
  simp [div_self hDq]

lemma buildRows_sound (cl : CandyLand) :
    ∀ (idxs : List Nat),
      (∀ i ∈ idxs, ∃ r, rowFor cl i = some r ∧ r.sum = 1) →
      ∃ M, buildRows cl idxs = some M ∧ ∀ row ∈ M, row.sum = 1 := by
  intro idxs
  induction idxs with
  | nil => intro _; exact ⟨[], rfl, by simp⟩
  | cons i rest ih =>
    intro hall
    obtain ⟨r, hr, hsum⟩ := hall i (by simp)
    obtain ⟨M, hM, hMall⟩ := ih (fun x hx => hall x (by simp [hx]))
    refine ⟨r :: M, by simp [buildRows, hr, hM], ?_⟩
    intro row hrow
    rcases List.mem_cons.mp hrow with h | h
    · rw [h]; exact hsum
    · exact hMall row h

/-- Claim C5: for a well-formed configuration with a non-empty deck, the
transition matrix built by `make_traversal_matrix` exists and every one
of its rows sums to exactly 1 as a rational — each distinct card label
contributes `count / deck_size` to exactly one cell of its row, and the
counts sum to the deck size. -/
theorem c5_rows_sum_one (cl : CandyLand) (hEnd : EndLast cl) (hch : CharsResolve cl)
    (hbr : BridgesResolve cl) (hlabels : ∀ p ∈ cl.deck, p.1 ≠ [])
    (hD : deckSize cl ≠ 0) :
    ∃ M, make_traversal_matrix cl = some M ∧ ∀ row ∈ M, row.sum = 1 := by
  refine buildRows_sound cl (List.range cl.board.length) ?_
  intro i hi
  exact rowFor_sum cl hEnd hch hbr hlabels hD i (List.mem_range.mp hi)

theorem c5_witness :
    ∃ M, make_traversal_matrix exCL = some M ∧ ∀ row ∈ M, row.sum = 1 :=
  c5_rows_sum_one exCL (by decide) (by decide) (by decide) (by decide) (by decide)

/-! ### Claim C10, counterexample: a single-letter character name breaks it -/

/-- A configuration where "b" is both a colour and a (single-letter)
character name, with the character space BEHIND the colour spaces.  The
double card "bb" is a colour card (it is not a character name), yet its
recursive single step `traverse("b", idx)` hits the
`card in self.characters` check and jumps backwards to the character
space. -/
def cl10 : CandyLand :=
  { board := [ { special := some ("start".data) },
               { char := some ("b".data) },
               { color := some ("b".data) },
               { color := some ("b".data) },
               { special := some ("end".data) } ]
    deck := [("bb".data, 1)]
    characters := ["b".data]
    bridges := [] }

/-- Claim C10, counterexample: on `cl10` the double-colour card "bb"
(not a character name) moves from index 2 — a plain colour space, not the
end marker, with no bridges at all (so the bridge proviso holds
vacuously) — BACKWARDS to index 1: `traverse("bb", 2) = 1`, refuting
strict forward progress. -/
theorem c10_counterexample :
    traverse cl10 ("bb".data) 2 = some 1 ∧ ¬ (2 < 1) ∧
    (spaceAt cl10 2).special ≠ some ("end".data) ∧
    ("bb".data) ∉ cl10.characters ∧ cl10.bridges = [] := by decide
